import Mathlib

/-!
Verification of the static-site build pipeline in `src/build.py`.

The script is a single linear pipeline:
`setup_directories` → `copy_static_files` → `generate_sitemap` → `generate_build_info`.

We embed it shallowly:
* a filesystem is a flat record of existing directory paths and of files
  (a path together with its byte content and modification time);
* paths are lists of name segments;
* each Python function becomes a pure Lean function on this state;
* `sys.exit(1)` and raised I/O errors become explicit result constructors.
-/

/-- A filesystem path, as a list of name segments (POSIX components). -/
abbrev FPath := List String

/-- Content and metadata of a regular file.  `shutil.copy2` copies both the
byte content and metadata such as the modification time, so a copied file
carries the whole record. -/
structure FileData where
  bytes : List Nat
  mtime : Nat
deriving DecidableEq, Repr

/-- A flat model of the filesystem: the set of existing directories and the
existing regular files with their data.  Lookup of a file scans `files`
front-to-back, so prepending an entry models an overwrite. -/
structure FS where
  dirs : List FPath
  files : List (FPath × FileData)
deriving DecidableEq, Repr

/-- The data stored at path `p`, if a regular file exists there
(first matching entry wins, so newer writes shadow older ones). -/
def FS.fileAt (fs : FS) (p : FPath) : Option FileData :=
  (fs.files.find? (fun e => decide (e.1 = p))).map (fun e => e.2)

/-- Does a regular file exist at `p`? -/
def FS.isFile (fs : FS) (p : FPath) : Bool := (fs.fileAt p).isSome

/-- Does a directory exist at `p`? -/
def FS.isDir (fs : FS) (p : FPath) : Bool := decide (p ∈ fs.dirs)

/-- Embeds `Path.exists()`: true if `p` is an existing file or directory. -/
def FS.pathExists (fs : FS) (p : FPath) : Bool := fs.isFile p || fs.isDir p

/-- Is `a` an initial segment of `b`?  Used both for path containment
(segment lists) and, through `endsWithChars`, for string suffix tests. -/
def isInitSeg {α : Type} [DecidableEq α] : List α → List α → Bool
  | [], _ => true
  | _ :: _, [] => false
  | a :: as, b :: bs => if a = b then isInitSeg as bs else false

/-- Embeds `str.endswith(pat)` on explicit character lists. -/
def endsWithChars (pat s : List Char) : Bool :=
  isInitSeg pat.reverse s.reverse

/-- Embeds `shutil.rmtree(p)`: delete the directory `p` and everything below it. -/
def FS.rmtree (fs : FS) (p : FPath) : FS :=
  { dirs := fs.dirs.filter (fun d => !(isInitSeg p d)),
    files := fs.files.filter (fun e => !(isInitSeg p e.1)) }

/-- The nonempty initial segments of `p`: the chain of directories that
`mkdir(parents=True)` has to ensure. -/
def initSegsOf (p : FPath) : List FPath :=
  (List.range p.length).map (fun i => p.take (i + 1))

/-- Embeds `p.mkdir(parents=True, exist_ok=True)`: succeeds at once if `p` is
already a directory; otherwise creates every missing ancestor, failing
(`none`) if some ancestor position is occupied by a regular file. -/
def FS.mkdirParents (fs : FS) (p : FPath) : Option FS :=
  if fs.isDir p then some fs
  else if (initSegsOf p).any (fun q => fs.isFile q) then none
  else some { fs with
    dirs := (initSegsOf p).filter (fun q => !(fs.isDir q)) ++ fs.dirs }

/-- The configuration object built in `BuildConfig.__init__` from the parsed
flags and the environment variables. -/
structure BuildConfig where
  verbose : Bool
  clean : Bool
  env : String
  content_dir : FPath
  dist_dir : FPath
deriving DecidableEq, Repr

/-- Embeds `config.is_development`, derived from the environment name. -/
def BuildConfig.isDevelopment (c : BuildConfig) : Bool := c.env == "development"

/-- Outcome of a build step: normal completion, `sys.exit(code)`, or a raised
I/O error (caught by `build`, which then exits 1).  Each non-`ok` outcome
carries the filesystem state at the moment it occurred. -/
inductive SetupResult where
  | exited (code : Nat) (fs : FS)
  | ioError (fs : FS)
  | ok (fs : FS)
deriving DecidableEq, Repr

/-- Embeds `setup_directories(config)`: exit 1 when the content directory is
missing; with `--clean` and an existing output directory, `rmtree` it
(raising if it is not a directory); then `mkdir(parents=True, exist_ok=True)`
the output directory. -/
def setup_directories (config : BuildConfig) (fs : FS) : SetupResult :=
  if !(fs.pathExists config.content_dir) then .exited 1 fs
  else if config.clean && fs.pathExists config.dist_dir then
    if fs.isDir config.dist_dir then
      match (fs.rmtree config.dist_dir).mkdirParents config.dist_dir with
      | some fs2 => .ok fs2
      | none => .ioError (fs.rmtree config.dist_dir)
    else .ioError fs
  else
    match fs.mkdirParents config.dist_dir with
    | some fs2 => .ok fs2
    | none => .ioError fs

/-! ## Version and build info (`get_version`, `get_git_commit`,
`generate_build_info`) -/

/-- Embeds `get_version()`: the stripped contents of a `VERSION` file if one exists
in the working directory, else `os.getenv('VERSION', '1.0.0')`.  The first
argument is the contents of the `VERSION` file when it exists, the second the
value of the `VERSION` environment variable when it is set. -/
def get_version (versionFile : Option String) (envVersion : Option String) : String :=
  match versionFile with
  | some txt => txt.trim
  | none =>
    match envVersion with
    | some v => v
    | none => "1.0.0"

/-- Outcome of running `git rev-parse --short HEAD` as an external process:
it may print a revision and exit 0, exit non-zero (`CalledProcessError`,
e.g. not a repository), or not be installed at all (`FileNotFoundError`). -/
inductive GitOutcome where
  | success (stdout : String)
  | exitedNonzero
  | notInstalled
deriving DecidableEq, Repr

/-- Embeds `get_git_commit()`: the stripped stdout on success; `None` when the
command fails or the tool is absent — both exception paths are caught. -/
def get_git_commit : GitOutcome → Option String
  | .success out => some out.trim
  | .exitedNonzero => none
  | .notInstalled => none

/-- A JSON value as written by `json.dump` for this record: each field is a
string or `null`. -/
inductive JsonVal where
  | null
  | str (s : String)
deriving DecidableEq, Repr

/-- The `build_info` dict built in `generate_build_info`. -/
structure BuildInfo where
  build_time : String
  build_env : String
  git_commit : Option String
  version : String
deriving DecidableEq, Repr

/-- Embeds `generate_build_info(config)`: assemble the record that is serialized to
`build-info.json`.  `now` is `datetime.now().isoformat()`; the remaining
arguments feed `get_git_commit` and `get_version`. -/
def generate_build_info (now : String) (env : String) (g : GitOutcome)
    (versionFile envVersion : Option String) : BuildInfo :=
  { build_time := now
    build_env := env
    git_commit := get_git_commit g
    version := get_version versionFile envVersion }

/-- The key/value pairs of the JSON object written to `build-info.json`, in
the dict's insertion order (`json.dump` preserves it). -/
def buildInfoPairs (b : BuildInfo) : List (String × JsonVal) :=
  [("build_time", .str b.build_time),
   ("build_env", .str b.build_env),
   ("git_commit", match b.git_commit with | some c => .str c | none => .null),
   ("version", .str b.version)]

/-! ## Content copier (`copy_static_files`) -/

/-- A top-level child of the content directory, as classified by
`item.is_file()` / `item.is_dir()`.  A directory child carries its whole
subtree flattened: the relative paths of the regular files below it (with
their data) and the relative paths of the directories below it.  `other` is
a child that is neither a regular file nor a directory (e.g. a broken
symbolic link). -/
inductive Child where
  | file (data : FileData)
  | dir (subfiles : List (FPath × FileData)) (subdirs : List FPath)
  | other
deriving DecidableEq, Repr

/-- Embeds `shutil.copy2(item, dist/name)`: write the file (bytes and metadata),
silently shadowing any previous file at that path. -/
def FS.writeFile (fs : FS) (p : FPath) (d : FileData) : FS :=
  { fs with files := (p, d) :: fs.files }

/-- Embeds `shutil.copytree(item, dist/name, dirs_exist_ok=True)`: create the
destination directory and every subdirectory, and copy every file of the
subtree (with `copy2`), shadowing colliding destination files but keeping
everything else — an overwrite-merge. -/
def FS.copyTree (fs : FS) (dst : FPath) (subfiles : List (FPath × FileData))
    (subdirs : List FPath) : FS :=
  { dirs := dst :: subdirs.map (fun p => dst ++ p) ++ fs.dirs,
    files := subfiles.map (fun e => (dst ++ e.1, e.2)) ++ fs.files }

/-- One iteration of the loop in `copy_static_files`: dispatch on the kind
of the child and update the filesystem and the two counters. -/
def copyStep (acc : FS × Nat × Nat) (item : String × Child) : FS × Nat × Nat :=
  match item.2 with
  | .file d => (acc.1.writeFile [item.1] d, acc.2.1 + 1, acc.2.2)
  | .dir sf sd => (acc.1.copyTree [item.1] sf sd, acc.2.1, acc.2.2 + 1)
  | .other => acc

/-- Embeds `copy_static_files(config)`: iterate over the children of the content
directory (paths in the result are relative to the output root), returning
the final filesystem together with `files_copied` and `dirs_copied`. -/
def copy_static_files (children : List (String × Child)) (fs : FS) :
    FS × Nat × Nat :=
  children.foldl copyStep (fs, 0, 0)

/-- The filesystem effect of a single child, without the counters. -/
def applyChild (fs : FS) (item : String × Child) : FS :=
  match item.2 with
  | .file d => fs.writeFile [item.1] d
  | .dir sf sd => fs.copyTree [item.1] sf sd
  | .other => fs

/-- What the child named `name` writes at path `q`, if anything: a file
child writes exactly at `[name]`, a directory child writes its subtree files
below `name`, an `other` child writes nothing. -/
def childWrite (name : String) (c : Child) (q : FPath) : Option FileData :=
  match c with
  | .file d => if q = [name] then some d else none
  | .dir sf _ => (sf.find? (fun e => decide (name :: e.1 = q))).map (fun e => e.2)
  | .other => none

/-- The last write performed at `q` by the whole child list (later children
shadow earlier ones). -/
def copyWrite (cs : List (String × Child)) (q : FPath) : Option FileData :=
  match cs with
  | [] => none
  | c :: rest =>
    match copyWrite rest q with
    | some d => some d
    | none => childWrite c.1 c.2 q

/-- Does the child named `name` create a directory at `q`? -/
def childMkDir (name : String) (c : Child) (q : FPath) : Bool :=
  match c with
  | .dir _ sd => decide (q = [name]) || sd.any (fun p => decide (q = name :: p))
  | _ => false

/-- Does some child of the list create a directory at `q`? -/
def copyDirs (cs : List (String × Child)) (q : FPath) : Bool :=
  cs.any (fun c => childMkDir c.1 c.2 q)

/-- Classifiers for the three kinds of children. -/
def Child.isFileChild : Child → Bool
  | .file _ => true
  | _ => false

def Child.isDirChild : Child → Bool
  | .dir _ _ => true
  | _ => false

def Child.isOtherChild : Child → Bool
  | .other => true
  | _ => false

/-- Are the subtree file paths of a directory child duplicate-free?  (True
for anything a real filesystem enumeration can produce.) -/
def dirKeysNodup (c : String × Child) : Bool :=
  match c.2 with
  | .dir sf _ => decide (sf.map Prod.fst).Nodup
  | _ => true

/-! ## Sitemap generator (`generate_sitemap`) -/

/-- Embeds `str(relative_path)` for a POSIX relative path: the segments joined
with `/`. -/
def joinSegs : List String → String
  | [] => ""
  | [s] => s
  | s :: rest => s ++ "/" ++ joinSegs rest

/-- Embeds `.replace('\\', '/')`: replace every backslash character by a slash. -/
def replaceBackslash (s : String) : String :=
  String.mk (s.data.map (fun c => if c = '\\' then '/' else c))

/-- The `url_path` computed for one HTML file before the index special case:
`str(relative_path).replace('\\', '/')`. -/
def urlPathOf (rel : FPath) : String := replaceBackslash (joinSegs rel)

/-- The text inside the `loc` element: a leading slash followed by the url
path, where a url path equal to `index.html` (the root index file) is
replaced by the empty string. -/
def locOf (rel : FPath) : String :=
  "/" ++ (if urlPathOf rel = "index.html" then "" else urlPathOf rel)

/-- The `loc` line emitted for one HTML file. -/
def locLineOf (rel : FPath) : String := "    <loc>" ++ locOf rel ++ "</loc>"

/-- The `lastmod` line: the current date, not the file's mtime. -/
def lastmodLineOf (today : String) : String :=
  "    <lastmod>" ++ today ++ "</lastmod>"

/-- The four lines appended for one HTML file. -/
def urlLinesOf (rel : FPath) (today : String) : List String :=
  ["  <url>", locLineOf rel, lastmodLineOf today, "  </url>"]

/-- Does the relative path match the recursive glob `*.html`, i.e. does its
final name component end in `.html`? -/
def matchesHtmlGlob (p : FPath) : Bool :=
  match p.getLast? with
  | some n => endsWithChars ".html".data n.data
  | none => false

/-- Embeds `generate_sitemap(config)`: the lines of the generated `sitemap.xml`,
as a function of the recursive enumeration of the regular files of the
output directory (paths relative to the output root) and of today's date. -/
def sitemapLines (distFiles : List FPath) (today : String) : List String :=
  ["<?xml version=\"1.0\" encoding=\"UTF-8\"?>",
   "<urlset xmlns=\"http://www.sitemaps.org/schemas/sitemap/0.9\">"]
  ++ (distFiles.filter matchesHtmlGlob).flatMap (fun f => urlLinesOf f today)
  ++ ["</urlset>"]

/-- The characters of the marker that identifies a `loc` line. -/
def locMarkChars : List Char := "    <loc>".data

/-- Is this line a `loc` (url entry) line of the sitemap? -/
def isLocLine (l : String) : Bool := isInitSeg locMarkChars l.data

/-- The url entry lines of a generated document. -/
def extractLocLines (lines : List String) : List String :=
  lines.filter isLocLine

/-! ## Helper lemmas: initial segments and string suffixes -/

theorem isInitSeg_append_self {α : Type} [DecidableEq α] (l t : List α) :
    isInitSeg l (l ++ t) = true := by
  induction l with
  | nil => rfl
  | cons a as ih => simp [isInitSeg, ih]

theorem isInitSeg_extend {α : Type} [DecidableEq α] (p : List α) :
    ∀ l t, isInitSeg p l = true → isInitSeg p (l ++ t) = true := by
  induction p with
  | nil => intro l t _; rfl
  | cons a as ih =>
    intro l t h
    cases l with
    | nil => simp [isInitSeg] at h
    | cons b bs =>
      simp only [isInitSeg] at h ⊢
      by_cases hab : a = b
      · simp only [hab, if_true] at h ⊢
        exact ih bs t h
      · simp [hab] at h

theorem isInitSeg_append_of_le {α : Type} [DecidableEq α] (p : List α) :
    ∀ l t, p.length ≤ l.length → isInitSeg p (l ++ t) = isInitSeg p l := by
  induction p with
  | nil => intro l t _; rfl
  | cons a as ih =>
    intro l t h
    cases l with
    | nil => simp at h
    | cons b bs =>
      simp only [List.cons_append, isInitSeg]
      by_cases hab : a = b
      · simp only [hab, if_true]
        exact ih bs t (by simpa using h)
      · simp [hab]

theorem isInitSeg_map {α β : Type} [DecidableEq α] [DecidableEq β] (f : α → β)
    (p : List α) :
    ∀ l, isInitSeg p l = true → isInitSeg (p.map f) (l.map f) = true := by
  induction p with
  | nil => intro l _; rfl
  | cons a as ih =>
    intro l h
    cases l with
    | nil => simp [isInitSeg] at h
    | cons b bs =>
      simp only [isInitSeg] at h
      by_cases hab : a = b
      · simp only [List.map_cons, isInitSeg, hab, if_true] at h ⊢
        exact ih bs h
      · simp [hab] at h

theorem isInitSeg_length_le {α : Type} [DecidableEq α] (p : List α) :
    ∀ l, isInitSeg p l = true → p.length ≤ l.length := by
  induction p with
  | nil => intro l _; simp
  | cons a as ih =>
    intro l h
    cases l with
    | nil => simp [isInitSeg] at h
    | cons b bs =>
      simp only [isInitSeg] at h
      by_cases hab : a = b
      · simp only [hab, if_true] at h
        simpa using ih bs h
      · simp [hab] at h

theorem isInitSeg_antisymm {α : Type} [DecidableEq α] (p : List α) :
    ∀ l, isInitSeg p l = true → isInitSeg l p = true → p = l := by
  induction p with
  | nil =>
    intro l _ h2
    cases l with
    | nil => rfl
    | cons b bs => simp [isInitSeg] at h2
  | cons a as ih =>
    intro l h1 h2
    cases l with
    | nil => simp [isInitSeg] at h1
    | cons b bs =>
      simp only [isInitSeg] at h1 h2
      by_cases hab : a = b
      · subst hab
        simp only [if_true] at h1 h2
        exact congrArg (a :: ·) (ih bs h1 h2)
      · simp [hab] at h1

theorem isInitSeg_take {α : Type} [DecidableEq α] (l : List α) :
    ∀ n, isInitSeg (l.take n) l = true := by
  induction l with
  | nil => intro n; cases n <;> rfl
  | cons a as ih =>
    intro n
    cases n with
    | zero => rfl
    | succ m => simp [List.take, isInitSeg, ih]

theorem endsWithChars_append (pat l t : List Char) :
    endsWithChars pat t = true → endsWithChars pat (l ++ t) = true := by
  intro h
  unfold endsWithChars at h ⊢
  rw [List.reverse_append]
  exact isInitSeg_extend _ _ _ h

theorem endsWithChars_map (pat s : List Char) (f : Char → Char) :
    endsWithChars pat s = true → endsWithChars (pat.map f) (s.map f) = true := by
  intro h
  unfold endsWithChars at h ⊢
  rw [← List.map_reverse, ← List.map_reverse]
  exact isInitSeg_map f _ _ h

/-! ## Helper lemmas: sitemap document structure -/

theorem isLocLine_locLineOf (f : FPath) : isLocLine (locLineOf f) = true := by
  unfold isLocLine locLineOf
  rw [String.data_append, String.data_append, List.append_assoc]
  exact isInitSeg_append_self locMarkChars _

theorem isLocLine_lastmodLineOf (t : String) :
    isLocLine (lastmodLineOf t) = false := by
  unfold isLocLine lastmodLineOf
  rw [String.data_append, String.data_append, List.append_assoc]
  rw [isInitSeg_append_of_le locMarkChars "    <lastmod>".data _ (by decide)]
  decide

theorem flatMap_singleton_fun {α β : Type} (g : α → β) (l : List α) :
    (l.flatMap fun x => [g x]) = l.map g := by
  induction l with
  | nil => rfl
  | cons a as ih => simp [List.flatMap_cons, ih]

theorem filter_urlLinesOf (f : FPath) (t : String) :
    (urlLinesOf f t).filter isLocLine = [locLineOf f] := by
  unfold urlLinesOf
  simp [List.filter, isLocLine_locLineOf, isLocLine_lastmodLineOf,
    show isLocLine "  <url>" = false from by decide,
    show isLocLine "  </url>" = false from by decide]

/-- The url entry lines of the generated sitemap are exactly one `loc` line
per HTML file found in the output, in traversal order. -/
theorem extract_sitemapLines (d : List FPath) (t : String) :
    extractLocLines (sitemapLines d t)
      = (d.filter matchesHtmlGlob).map locLineOf := by
  unfold extractLocLines sitemapLines
  rw [List.filter_append, List.filter_append, List.filter_flatMap]
  have h1 : (["<?xml version=\"1.0\" encoding=\"UTF-8\"?>",
      "<urlset xmlns=\"http://www.sitemaps.org/schemas/sitemap/0.9\">"]).filter
        isLocLine = [] := by decide
  have h2 : (["</urlset>"]).filter isLocLine = [] := by decide
  rw [h1, h2]
  simp only [List.nil_append, List.append_nil]
  have h3 : (fun f => (urlLinesOf f t).filter isLocLine)
      = (fun f => [locLineOf f]) := funext fun f => filter_urlLinesOf f t
  rw [h3, flatMap_singleton_fun]

/-! ## Helper lemmas: url paths of HTML files keep their `.html` suffix -/

theorem joinSegs_data_last (pat : List Char) :
    ∀ (l : List String) (n : String), l.getLast? = some n →
      endsWithChars pat n.data = true →
      endsWithChars pat (joinSegs l).data = true := by
  intro l
  induction l with
  | nil => intro n hn _; simp at hn
  | cons s rest ih =>
    intro n hn hend
    cases rest with
    | nil =>
      simp only [List.getLast?_singleton, Option.some.injEq] at hn
      subst hn
      exact hend
    | cons s2 rest2 =>
      rw [List.getLast?_cons_cons] at hn
      have : joinSegs (s :: s2 :: rest2) = (s ++ "/") ++ joinSegs (s2 :: rest2) := by
        simp [joinSegs, String.append_assoc]
      rw [this, String.data_append]
      exact endsWithChars_append pat _ _ (ih n hn hend)

theorem replaceBackslash_data (s : String) :
    (replaceBackslash s).data = s.data.map (fun c => if c = '\\' then '/' else c) := rfl

/-- The url path computed for a file matching the `*.html` glob still ends
in `.html` after joining the segments and replacing backslashes. -/
theorem urlPathOf_html_suffix (f : FPath) (h : matchesHtmlGlob f = true) :
    endsWithChars ".html".data (urlPathOf f).data = true := by
  unfold matchesHtmlGlob at h
  cases hl : f.getLast? with
  | none => rw [hl] at h; exact absurd h (by decide)
  | some n =>
    rw [hl] at h
    have hjoin : endsWithChars ".html".data (joinSegs f).data = true :=
      joinSegs_data_last _ f n hl h
    unfold urlPathOf
    rw [replaceBackslash_data]
    have hmap := endsWithChars_map ".html".data (joinSegs f).data
      (fun c => if c = '\\' then '/' else c) hjoin
    have hfix : (".html".data.map (fun c => if c = '\\' then '/' else c))
        = ".html".data := by decide
    rw [hfix] at hmap
    exact hmap

/-- The `loc` text of an HTML file is never the url of one of the two
generated artifacts. -/
theorem locOf_data_ne_artifacts (f : FPath) (h : matchesHtmlGlob f = true) :
    (locOf f).data ≠ "/sitemap.xml".data
    ∧ (locOf f).data ≠ "/build-info.json".data := by
  unfold locOf
  by_cases hif : urlPathOf f = "index.html"
  · simp only [hif, if_true]
    exact ⟨by decide, by decide⟩
  · simp only [hif, if_false]
    have hsuf := urlPathOf_html_suffix f h
    constructor
    · intro heq
      rw [String.data_append] at heq
      have : (urlPathOf f).data = "sitemap.xml".data := by
        have h2 : ('/' : Char) :: (urlPathOf f).data
            = '/' :: "sitemap.xml".data := heq
        exact List.cons_injective h2
      rw [this] at hsuf
      exact absurd hsuf (by decide)
    · intro heq
      rw [String.data_append] at heq
      have : (urlPathOf f).data = "build-info.json".data := by
        have h2 : ('/' : Char) :: (urlPathOf f).data
            = '/' :: "build-info.json".data := heq
        exact List.cons_injective h2
      rw [this] at hsuf
      exact absurd hsuf (by decide)

/-! ## Claim theorems: sitemap -/

/-- Claim C1: after a build, the generated sitemap contains exactly one url
entry per HTML file of the output directory — the `loc` lines of the
document are precisely one per file matching `*.html`, in traversal order,
none omitted and none duplicated — and the root `index.html` is listed with
`loc` equal to `/`. -/
theorem sitemap_lists_each_html_file_exactly_once (d : List FPath) (t : String) :
    extractLocLines (sitemapLines d t) = (d.filter matchesHtmlGlob).map locLineOf
    ∧ locOf ["index.html"] = "/"
    ∧ (["index.html"] ∈ d →
        "    <loc>/</loc>" ∈ extractLocLines (sitemapLines d t)) := by
  refine ⟨extract_sitemapLines d t, by decide, ?_⟩
  intro hmem
  rw [extract_sitemapLines d t]
  have hf : (["index.html"] : FPath) ∈ d.filter matchesHtmlGlob :=
    List.mem_filter.mpr ⟨hmem, by decide⟩
  have hline : locLineOf ["index.html"] = "    <loc>/</loc>" := by decide
  have h2 := List.mem_map_of_mem locLineOf hf
  rwa [hline] at h2

/-- Witness for C1 at a concrete output directory. -/
theorem sitemap_lists_each_html_file_exactly_once_witness :
    "    <loc>/</loc>"
      ∈ extractLocLines (sitemapLines [["index.html"], ["about.html"]] "2025-10-12") :=
  (sitemap_lists_each_html_file_exactly_once
    [["index.html"], ["about.html"]] "2025-10-12").2.2 (by decide)

/-- Counterexample to claim C2: the code compares the whole relative url
path with `index.html`, so a nested `blog/index.html` is listed as
`/blog/index.html`, not as the claimed directory root `/blog/`. -/
theorem nested_index_not_special_cased :
    locOf ["blog", "index.html"] = "/blog/index.html"
    ∧ locOf ["blog", "index.html"] ≠ "/blog/" := by decide

/-- Claim C2 (amended): only the file whose whole relative path is
`index.html` — the root index file — is mapped to the empty path segment;
any other HTML file, including a nested `index.html`, is listed under its
full slash-joined relative path. -/
theorem index_special_case_root_only (rel : FPath) :
    (urlPathOf rel = "index.html" → locOf rel = "/")
    ∧ (urlPathOf rel ≠ "index.html" → locOf rel = "/" ++ urlPathOf rel) := by
  unfold locOf
  constructor
  · intro h; simp [h]
  · intro h; simp [h]

/-- Witness for the amended C2 on both sides of the special case. -/
theorem index_special_case_root_only_witness :
    locOf ["index.html"] = "/"
    ∧ locOf ["blog", "index.html"] = "/" ++ urlPathOf ["blog", "index.html"] :=
  ⟨(index_special_case_root_only ["index.html"]).1 (by decide),
   (index_special_case_root_only ["blog", "index.html"]).2 (by decide)⟩

/-- Claim C9: the two generated artifacts never list themselves — no url
entry of the generated sitemap is the entry of `sitemap.xml` or of
`build-info.json`, because entries are generated only for files matching
`*.html` and neither artifact name matches that pattern. -/
theorem generated_artifacts_never_in_sitemap (d : List FPath) (t : String) :
    (∀ l ∈ extractLocLines (sitemapLines d t),
        l ≠ "    <loc>/sitemap.xml</loc>" ∧ l ≠ "    <loc>/build-info.json</loc>")
    ∧ (∀ f : FPath,
        f.getLast? = some "sitemap.xml" ∨ f.getLast? = some "build-info.json" →
        matchesHtmlGlob f = false) := by
  constructor
  · intro l hl
    rw [extract_sitemapLines d t] at hl
    obtain ⟨f, hfmem, rfl⟩ := List.mem_map.mp hl
    have hhtml : matchesHtmlGlob f = true := (List.mem_filter.mp hfmem).2
    have hne := locOf_data_ne_artifacts f hhtml
    constructor
    · intro heq
      apply hne.1
      have hdata := congrArg String.data heq
      rw [show ("    <loc>/sitemap.xml</loc>" : String)
          = "    <loc>" ++ "/sitemap.xml" ++ "</loc>" from by decide] at hdata
      unfold locLineOf at hdata
      simp only [String.data_append] at hdata
      exact List.append_cancel_left (List.append_cancel_right hdata)
    · intro heq
      apply hne.2
      have hdata := congrArg String.data heq
      rw [show ("    <loc>/build-info.json</loc>" : String)
          = "    <loc>" ++ "/build-info.json" ++ "</loc>" from by decide] at hdata
      unfold locLineOf at hdata
      simp only [String.data_append] at hdata
      exact List.append_cancel_left (List.append_cancel_right hdata)
  · intro f hf
    unfold matchesHtmlGlob
    rcases hf with hf | hf <;> rw [hf] <;> decide

/-- Witness for C9 at a concrete output directory. -/
theorem generated_artifacts_never_in_sitemap_witness :
    locLineOf ["about.html"] ≠ "    <loc>/sitemap.xml</loc>"
    ∧ matchesHtmlGlob ["sitemap.xml"] = false :=
  ⟨((generated_artifacts_never_in_sitemap [["about.html"]] "2025-10-12").1
      (locLineOf ["about.html"]) (by decide)).1,
   (generated_artifacts_never_in_sitemap [] "").2 ["sitemap.xml"] (Or.inl rfl)⟩

/-! ## Claim theorems: build info -/

/-- Claim C7: the version written into `build-info.json` is resolved as the
stripped contents of a `VERSION` file when it exists, else the `VERSION`
environment variable when it is set, else the literal `1.0.0`. -/
theorem version_resolution_priority :
    (∀ txt env, get_version (some txt) env = txt.trim)
    ∧ (∀ env, get_version none (some env) = env)
    ∧ get_version none none = "1.0.0" :=
  ⟨fun _ _ => rfl, fun _ => rfl, rfl⟩

/-- Claim C8: when the revision-control command is unavailable or exits
non-zero, the build-info record is still produced (the emitter is a total
function of the outcome), its `git_commit` key is present with value `null`,
and the `build_time` and `build_env` keys are always present. -/
theorem git_failure_is_not_fatal :
    (∀ now env vf ev,
        (buildInfoPairs (generate_build_info now env .exitedNonzero vf ev)).map
            Prod.fst
          = ["build_time", "build_env", "git_commit", "version"]
        ∧ ("git_commit", JsonVal.null)
            ∈ buildInfoPairs (generate_build_info now env .exitedNonzero vf ev)
        ∧ ("git_commit", JsonVal.null)
            ∈ buildInfoPairs (generate_build_info now env .notInstalled vf ev))
    ∧ (∀ now env g vf ev,
        (buildInfoPairs (generate_build_info now env g vf ev)).map Prod.fst
          = ["build_time", "build_env", "git_commit", "version"]
        ∧ ("build_time", JsonVal.str now)
            ∈ buildInfoPairs (generate_build_info now env g vf ev)
        ∧ ("build_env", JsonVal.str env)
            ∈ buildInfoPairs (generate_build_info now env g vf ev)) := by
  constructor
  · intro now env vf ev
    refine ⟨rfl, ?_, ?_⟩ <;> simp [buildInfoPairs, generate_build_info, get_git_commit]
  · intro now env g vf ev
    refine ⟨rfl, ?_, ?_⟩ <;> simp [buildInfoPairs, generate_build_info]

/-! ## Helper lemmas: the copy step -/

theorem find?_append_opt {α : Type} (p : α → Bool) :
    ∀ (l₁ l₂ : List α), (l₁ ++ l₂).find? p
      = match l₁.find? p with
        | some x => some x
        | none => l₂.find? p := by
  intro l₁ l₂
  induction l₁ with
  | nil => rfl
  | cons a l ih =>
    by_cases ha : p a = true
    · simp [List.find?_cons_of_pos, ha]
    · simp only [List.cons_append, List.find?_cons_of_neg _ ha, ih]

theorem find?_map_opt {α β : Type} (g : α → β) (p : β → Bool) :
    ∀ l : List α, (l.map g).find? p = (l.find? (fun x => p (g x))).map g := by
  intro l
  induction l with
  | nil => rfl
  | cons a l ih =>
    by_cases ha : p (g a) = true
    · simp [List.find?_cons_of_pos, ha]
    · rw [List.map_cons, List.find?_cons_of_neg _ ha, ih,
        show List.find? (fun x => p (g x)) (a :: l)
          = List.find? (fun x => p (g x)) l from List.find?_cons_of_neg _ ha]

theorem copy_fst (cs : List (String × Child)) :
    ∀ (fs : FS) (a b : Nat),
      (List.foldl copyStep (fs, a, b) cs).1 = List.foldl applyChild fs cs := by
  induction cs with
  | nil => intro fs a b; rfl
  | cons c cs ih =>
    intro fs a b
    obtain ⟨nm, ch⟩ := c
    cases ch with
    | file d => exact ih _ _ _
    | dir sf sd => exact ih _ _ _
    | other => exact ih _ _ _

theorem fileAt_applyChild (fs : FS) (c : String × Child) (q : FPath) :
    (applyChild fs c).fileAt q
      = match childWrite c.1 c.2 q with
        | some d => some d
        | none => fs.fileAt q := by
  obtain ⟨nm, ch⟩ := c
  cases ch with
  | file d =>
    by_cases hq : q = [nm]
    · subst hq
      simp [applyChild, FS.writeFile, FS.fileAt, childWrite,
        List.find?_cons_of_pos]
    · have hne : ¬(decide (([nm] : FPath) = q) = true) := by
        simp
        exact fun h => hq h.symm
      show ((fs.writeFile [nm] d).files.find? (fun e => decide (e.1 = q))).map
          (fun e => e.2) = _
      unfold FS.writeFile
      simp only
      rw [show List.find? (fun e : FPath × FileData => decide (e.1 = q))
            ((([nm], d)) :: fs.files)
          = List.find? (fun e => decide (e.1 = q)) fs.files from
          List.find?_cons_of_neg _ hne]
      simp only [childWrite, if_neg hq]
      rfl
  | dir sf sd =>
    show (fs.copyTree [nm] sf sd).fileAt q = _
    unfold FS.copyTree FS.fileAt childWrite
    simp only
    rw [find?_append_opt, find?_map_opt]
    have hpred : (fun e : FPath × FileData => decide (([nm] ++ e.1 : FPath) = q))
        = (fun e : FPath × FileData => decide (nm :: e.1 = q)) := by
      funext e
      simp [List.singleton_append]
    rw [hpred]
    cases sf.find? (fun e => decide (nm :: e.1 = q)) with
    | none => rfl
    | some e => rfl
  | other =>
    show fs.fileAt q = _
    rfl

theorem copy_fileAt (cs : List (String × Child)) :
    ∀ (fs : FS) (q : FPath),
      (List.foldl applyChild fs cs).fileAt q
        = match copyWrite cs q with
          | some d => some d
          | none => fs.fileAt q := by
  induction cs with
  | nil => intro fs q; rfl
  | cons c cs ih =>
    intro fs q
    rw [List.foldl_cons, ih (applyChild fs c) q, fileAt_applyChild]
    have hcw : copyWrite (c :: cs) q
        = match copyWrite cs q with
          | some d => some d
          | none => childWrite c.1 c.2 q := rfl
    rw [hcw]
    cases copyWrite cs q with
    | some d => rfl
    | none =>
      cases childWrite c.1 c.2 q with
      | some d => rfl
      | none => rfl

theorem isDir_applyChild (fs : FS) (c : String × Child) (q : FPath) :
    (applyChild fs c).isDir q = (childMkDir c.1 c.2 q || fs.isDir q) := by
  obtain ⟨nm, ch⟩ := c
  cases ch with
  | file d => show fs.isDir q = _; rfl
  | dir sf sd =>
    show (fs.copyTree [nm] sf sd).isDir q = _
    rw [Bool.eq_iff_iff]
    simp only [FS.isDir, FS.copyTree, childMkDir, Bool.or_eq_true,
      decide_eq_true_eq, List.any_eq_true, List.mem_cons, List.mem_append,
      List.mem_map, List.singleton_append]
    constructor
    · intro h
      aesop
    · intro h
      aesop
  | other => show fs.isDir q = _; rfl

theorem isDir_copy (cs : List (String × Child)) :
    ∀ (fs : FS) (q : FPath),
      (List.foldl applyChild fs cs).isDir q = (copyDirs cs q || fs.isDir q) := by
  induction cs with
  | nil => intro fs q; rfl
  | cons c cs ih =>
    intro fs q
    rw [List.foldl_cons, ih (applyChild fs c) q, isDir_applyChild]
    have hcd : copyDirs (c :: cs) q = (childMkDir c.1 c.2 q || copyDirs cs q) := by
      simp [copyDirs, List.any_cons]
    rw [hcd, Bool.or_assoc, Bool.or_left_comm]

theorem copy_counts (cs : List (String × Child)) :
    ∀ (fs : FS) (a b : Nat),
      (List.foldl copyStep (fs, a, b) cs).2.1
          = a + (cs.filter (fun c => c.2.isFileChild)).length
      ∧ (List.foldl copyStep (fs, a, b) cs).2.2
          = b + (cs.filter (fun c => c.2.isDirChild)).length := by
  induction cs with
  | nil => intro fs a b; exact ⟨rfl, rfl⟩
  | cons c cs ih =>
    intro fs a b
    obtain ⟨nm, ch⟩ := c
    cases ch with
    | file d =>
      have h := ih (fs.writeFile [nm] d) (a + 1) b
      have hf : List.filter (fun c => c.2.isFileChild) ((nm, Child.file d) :: cs)
          = (nm, Child.file d) :: List.filter (fun c => c.2.isFileChild) cs := rfl
      have hd : List.filter (fun c => c.2.isDirChild) ((nm, Child.file d) :: cs)
          = List.filter (fun c => c.2.isDirChild) cs := rfl
      refine ⟨?_, ?_⟩
      · rw [List.foldl_cons]
        show (List.foldl copyStep (fs.writeFile [nm] d, a + 1, b) cs).2.1 = _
        rw [h.1, hf, List.length_cons]
        omega
      · rw [List.foldl_cons]
        show (List.foldl copyStep (fs.writeFile [nm] d, a + 1, b) cs).2.2 = _
        rw [h.2, hd]
    | dir sf sd =>
      have h := ih (fs.copyTree [nm] sf sd) a (b + 1)
      have hf : List.filter (fun c => c.2.isFileChild) ((nm, Child.dir sf sd) :: cs)
          = List.filter (fun c => c.2.isFileChild) cs := rfl
      have hd : List.filter (fun c => c.2.isDirChild) ((nm, Child.dir sf sd) :: cs)
          = (nm, Child.dir sf sd) :: List.filter (fun c => c.2.isDirChild) cs := rfl
      refine ⟨?_, ?_⟩
      · rw [List.foldl_cons]
        show (List.foldl copyStep (fs.copyTree [nm] sf sd, a, b + 1) cs).2.1 = _
        rw [h.1, hf]
      · rw [List.foldl_cons]
        show (List.foldl copyStep (fs.copyTree [nm] sf sd, a, b + 1) cs).2.2 = _
        rw [h.2, hd, List.length_cons]
        omega
    | other =>
      have h := ih fs a b
      have hf : List.filter (fun c => c.2.isFileChild) ((nm, Child.other) :: cs)
          = List.filter (fun c => c.2.isFileChild) cs := rfl
      have hd : List.filter (fun c => c.2.isDirChild) ((nm, Child.other) :: cs)
          = List.filter (fun c => c.2.isDirChild) cs := rfl
      refine ⟨?_, ?_⟩
      · rw [List.foldl_cons]
        show (List.foldl copyStep (fs, a, b) cs).2.1 = _
        rw [h.1, hf]
      · rw [List.foldl_cons]
        show (List.foldl copyStep (fs, a, b) cs).2.2 = _
        rw [h.2, hd]

/-! ## Claim theorems: content copier -/

/-- Claim C6: the copy step is idempotent for unchanged inputs — running it
a second time on the filesystem it produced overwrites every previously
copied file with identical content, leaving the same output tree (same file
data at every path, same directories). -/
theorem copy_step_idempotent (children : List (String × Child)) (fs : FS)
    (q : FPath) :
    ((copy_static_files children
        ((copy_static_files children fs).1)).1).fileAt q
      = ((copy_static_files children fs).1).fileAt q
    ∧ ((copy_static_files children
        ((copy_static_files children fs).1)).1).isDir q
      = ((copy_static_files children fs).1).isDir q := by
  have hfst : ∀ g : FS, (copy_static_files children g).1
      = List.foldl applyChild g children := fun g => copy_fst children g 0 0
  simp only [hfst]
  constructor
  · rw [copy_fileAt, copy_fileAt]
    cases copyWrite children q with
    | some d => rfl
    | none => rfl
  · rw [isDir_copy, isDir_copy]
    cases copyDirs children q <;> simp

theorem foldl_copyStep_filter (cs : List (String × Child)) :
    ∀ acc : FS × Nat × Nat,
      List.foldl copyStep acc (cs.filter (fun c => !(c.2.isOtherChild)))
        = List.foldl copyStep acc cs := by
  induction cs with
  | nil => intro acc; rfl
  | cons c cs ih =>
    intro acc
    obtain ⟨nm, ch⟩ := c
    cases ch with
    | file d =>
      have hkeep : List.filter (fun c => !(c.2.isOtherChild))
            ((nm, Child.file d) :: cs)
          = (nm, Child.file d)
              :: List.filter (fun c => !(c.2.isOtherChild)) cs := rfl
      rw [hkeep, List.foldl_cons, List.foldl_cons]
      exact ih _
    | dir sf sd =>
      have hkeep : List.filter (fun c => !(c.2.isOtherChild))
            ((nm, Child.dir sf sd) :: cs)
          = (nm, Child.dir sf sd)
              :: List.filter (fun c => !(c.2.isOtherChild)) cs := rfl
      rw [hkeep, List.foldl_cons, List.foldl_cons]
      exact ih _
    | other =>
      have hdrop : List.filter (fun c => !(c.2.isOtherChild))
            ((nm, Child.other) :: cs)
          = List.filter (fun c => !(c.2.isOtherChild)) cs := rfl
      have hstep : copyStep acc (nm, Child.other) = acc := rfl
      rw [hdrop, List.foldl_cons, hstep]
      exact ih _

/-- Claim C10: a top-level child that is neither a regular file nor a
directory is silently skipped — removing all such children changes neither
the resulting filesystem nor the two counters, and the counters count
exactly the file children and the directory children. -/
theorem other_children_skipped (children : List (String × Child)) (fs : FS) :
    copy_static_files children fs
      = copy_static_files
          (children.filter (fun c => !(c.2.isOtherChild))) fs
    ∧ (copy_static_files children fs).2.1
        = (children.filter (fun c => c.2.isFileChild)).length
    ∧ (copy_static_files children fs).2.2
        = (children.filter (fun c => c.2.isDirChild)).length := by
  have hc := copy_counts children fs 0 0
  refine ⟨?_, ?_, ?_⟩
  case refine_2 =>
    show (List.foldl copyStep (fs, 0, 0) children).2.1 = _
    rw [hc.1, Nat.zero_add]
  case refine_3 =>
    show (List.foldl copyStep (fs, 0, 0) children).2.2 = _
    rw [hc.2, Nat.zero_add]
  show List.foldl copyStep (fs, 0, 0) children
    = List.foldl copyStep (fs, 0, 0)
        (children.filter (fun c => !(c.2.isOtherChild)))
  exact (foldl_copyStep_filter children (fs, 0, 0)).symm

theorem childWrite_none_of_head (name : String) (c : Child) (q : FPath)
    (h : q.head? ≠ some name) : childWrite name c q = none := by
  cases c with
  | file d =>
    show (if q = [name] then some d else none) = none
    rw [if_neg]
    intro hq
    rw [hq] at h
    exact h rfl
  | dir sf sd =>
    show ((sf.find? (fun e => decide (name :: e.1 = q))).map (fun e => e.2)) = none
    have hfind : sf.find? (fun e => decide (name :: e.1 = q)) = none := by
      apply List.find?_eq_none.mpr
      intro e _ he
      rw [decide_eq_true_eq] at he
      rw [← he] at h
      exact h rfl
    rw [hfind]
    rfl
  | other => rfl

theorem copyWrite_none (cs : List (String × Child)) (q : FPath)
    (h : ∀ c ∈ cs, childWrite c.1 c.2 q = none) : copyWrite cs q = none := by
  induction cs with
  | nil => rfl
  | cons c cs ih =>
    show (match copyWrite cs q with
      | some d => some d
      | none => childWrite c.1 c.2 q) = none
    rw [ih (fun c' hc' => h c' (List.mem_cons_of_mem c hc')),
      h c (List.mem_cons_self c cs)]

theorem copyWrite_of_unique (cs : List (String × Child)) (name : String)
    (ch : Child) (q : FPath) (hnd : (cs.map Prod.fst).Nodup)
    (hmem : (name, ch) ∈ cs) (hq : q.head? = some name) :
    copyWrite cs q = childWrite name ch q := by
  induction cs with
  | nil => exact absurd hmem (List.not_mem_nil _)
  | cons c cs ih =>
    rw [List.map_cons, List.nodup_cons] at hnd
    show (match copyWrite cs q with
      | some d => some d
      | none => childWrite c.1 c.2 q) = childWrite name ch q
    rcases List.mem_cons.mp hmem with hc | hmem'
    · have hcname : c.1 = name := by rw [← hc]
      have hrest : copyWrite cs q = none := by
        apply copyWrite_none
        intro c' hc'
        apply childWrite_none_of_head
        rw [hq]
        intro hss
        have hname : name = c'.1 := Option.some.inj hss
        have hmm : c'.1 ∈ cs.map Prod.fst := List.mem_map_of_mem Prod.fst hc'
        rw [← hname, ← hcname] at hmm
        exact hnd.1 hmm
      rw [hrest, ← hc]
    · have hne : c.1 ≠ name := by
        intro heq
        have hmm : (name, ch).1 ∈ cs.map Prod.fst :=
          List.mem_map_of_mem Prod.fst hmem'
        rw [← heq] at hmm
        exact hnd.1 hmm
      rw [ih hnd.2 hmem']
      cases hcw : childWrite name ch q with
      | some d => rfl
      | none =>
        apply childWrite_none_of_head
        rw [hq]
        intro hss
        exact hne (Option.some.inj hss).symm

theorem find?_key_of_nodup (sf : List (FPath × FileData)) (p : FPath)
    (d : FileData) (hnd : (sf.map Prod.fst).Nodup) (hmem : (p, d) ∈ sf) :
    sf.find? (fun e => decide (e.1 = p)) = some (p, d) := by
  induction sf with
  | nil => exact absurd hmem (List.not_mem_nil _)
  | cons e sf ih =>
    rw [List.map_cons, List.nodup_cons] at hnd
    by_cases he : e.1 = p
    · have heq : e = (p, d) := by
        rcases List.mem_cons.mp hmem with h | h
        · exact h.symm
        · have hmm : (p, d).1 ∈ sf.map Prod.fst := List.mem_map_of_mem Prod.fst h
          rw [show ((p, d).1 : FPath) = p from rfl, ← he] at hmm
          exact absurd hmm hnd.1
      rw [List.find?_cons_of_pos _ (by simp [he]), heq]
    · have hmem' : (p, d) ∈ sf := by
        rcases List.mem_cons.mp hmem with h | h
        · exact absurd (congrArg Prod.fst h.symm) he
        · exact h
      rw [List.find?_cons_of_neg _ (by simp [he]), ih hnd.2 hmem']

/-- Claim C5: for every top-level child of the content directory — a file
child is copied (bytes and metadata such as mtime preserved, as `copy2`
does) to the output root under the same name, silently overwriting any
previous file there; a directory child's entire subtree is copied
recursively, merging into any pre-existing destination directory with
colliding files overwritten and all unrelated destination files retained
(overwrite-merge, never a conflict error). -/
theorem copy_static_files_semantics (children : List (String × Child))
    (fs : FS) (hnames : (children.map Prod.fst).Nodup)
    (hkeys : ∀ c ∈ children, dirKeysNodup c = true) :
    (∀ name d, (name, Child.file d) ∈ children →
        ((copy_static_files children fs).1).fileAt [name] = some d)
    ∧ (∀ name sf sd, (name, Child.dir sf sd) ∈ children →
        ((copy_static_files children fs).1).isDir [name] = true
        ∧ ∀ p d, (p, d) ∈ sf →
            ((copy_static_files children fs).1).fileAt (name :: p) = some d)
    ∧ (∀ q, (∀ c ∈ children, childWrite c.1 c.2 q = none) →
        ((copy_static_files children fs).1).fileAt q = fs.fileAt q) := by
  have hfst : (copy_static_files children fs).1
      = List.foldl applyChild fs children := copy_fst children fs 0 0
  rw [hfst]
  refine ⟨?_, ?_, ?_⟩
  · intro name d hmem
    have hcw : childWrite name (Child.file d) [name] = some d := by
      show (if ([name] : FPath) = [name] then some d else none) = some d
      rw [if_pos rfl]
    rw [copy_fileAt,
      copyWrite_of_unique children name (Child.file d) [name] hnames hmem rfl,
      hcw]
  · intro name sf sd hmem
    constructor
    · rw [isDir_copy]
      have hmk : childMkDir name (Child.dir sf sd) [name] = true := by
        show (decide (([name] : FPath) = [name])
          || sd.any (fun p => decide (([name] : FPath) = name :: p))) = true
        simp
      have h2 : copyDirs children [name] = true :=
        List.any_eq_true.mpr ⟨(name, Child.dir sf sd), hmem, hmk⟩
      rw [h2]
      rfl
    · intro p d hpd
      have hknd : (sf.map Prod.fst).Nodup := by
        have h := hkeys (name, Child.dir sf sd) hmem
        unfold dirKeysNodup at h
        simp only at h
        exact of_decide_eq_true h
      have hpred : (fun e : FPath × FileData => decide (name :: e.1 = name :: p))
          = (fun e : FPath × FileData => decide (e.1 = p)) := by
        funext e
        apply decide_eq_decide.mpr
        constructor
        · intro h
          exact (List.cons.injEq _ _ _ _).mp h |>.2
        · intro h
          rw [h]
      have hcw : childWrite name (Child.dir sf sd) (name :: p) = some d := by
        show ((sf.find? (fun e => decide (name :: e.1 = name :: p))).map
          (fun e => e.2)) = some d
        rw [hpred, find?_key_of_nodup sf p d hknd hpd]
        rfl
      rw [copy_fileAt,
        copyWrite_of_unique children name (Child.dir sf sd) (name :: p)
          hnames hmem rfl,
        hcw]
  · intro q hall
    rw [copy_fileAt, copyWrite_none children q hall]

/-- Witness for C5 on a concrete content listing and an output directory
that already holds a colliding file and an unrelated file. -/
theorem copy_static_files_semantics_witness :
    ((copy_static_files
        [("a.html", Child.file ⟨[1, 2], 3⟩),
         ("sub", Child.dir [(["x.html"], ⟨[4], 5⟩)] [["deep"]])]
        ⟨[], [(["sub", "x.html"], ⟨[9], 9⟩), (["keep.txt"], ⟨[7], 7⟩)]⟩).1).fileAt
      ["sub", "x.html"] = some ⟨[4], 5⟩ :=
  (((copy_static_files_semantics
      [("a.html", Child.file ⟨[1, 2], 3⟩),
       ("sub", Child.dir [(["x.html"], ⟨[4], 5⟩)] [["deep"]])]
      ⟨[], [(["sub", "x.html"], ⟨[9], 9⟩), (["keep.txt"], ⟨[7], 7⟩)]⟩
      (by decide) (by decide)).2.1 "sub" [(["x.html"], ⟨[4], 5⟩)] [["deep"]]
      (by decide)).2 ["x.html"] ⟨[4], 5⟩ (by decide))

/-! ## Helper lemmas: directory preparation -/

theorem isInitSeg_rfl {α : Type} [DecidableEq α] (l : List α) :
    isInitSeg l l = true := by
  have h := isInitSeg_append_self l ([] : List α)
  rwa [List.append_nil] at h

theorem isInitSeg_of_mem_initSegsOf (q p : FPath) (h : q ∈ initSegsOf p) :
    isInitSeg q p = true := by
  unfold initSegsOf at h
  obtain ⟨i, _, rfl⟩ := List.mem_map.mp h
  exact isInitSeg_take p (i + 1)

theorem self_mem_initSegsOf (p : FPath) (hp : p ≠ []) : p ∈ initSegsOf p := by
  unfold initSegsOf
  apply List.mem_map.mpr
  refine ⟨p.length - 1, List.mem_range.mpr ?_, ?_⟩
  · have := List.length_pos.mpr hp
    omega
  · have hlen : p.length - 1 + 1 = p.length := by
      have := List.length_pos.mpr hp
      omega
    rw [hlen, List.take_length]

theorem rmtree_isDir (fs : FS) (p r : FPath) :
    (fs.rmtree p).isDir r = (fs.isDir r && !(isInitSeg p r)) := by
  by_cases h1 : r ∈ fs.dirs <;> by_cases h2 : isInitSeg p r = true <;>
    simp [FS.isDir, FS.rmtree, List.mem_filter, h1, h2]

theorem rmtree_fileAt_under (fs : FS) (p q : FPath)
    (h : isInitSeg p q = true) : (fs.rmtree p).fileAt q = none := by
  unfold FS.fileAt FS.rmtree
  simp only
  rw [List.find?_eq_none.mpr, Option.map_none']
  intro e he hq
  rw [decide_eq_true_eq] at hq
  have := (List.mem_filter.mp he).2
  rw [hq, h] at this
  simp at this

theorem rmtree_isFile_le (fs : FS) (p q : FPath)
    (h : (fs.rmtree p).isFile q = true) : fs.isFile q = true := by
  unfold FS.isFile FS.fileAt at h ⊢
  rw [Option.isSome_map'] at h ⊢
  obtain ⟨e, he, hpe⟩ := List.find?_isSome.mp h
  exact List.find?_isSome.mpr ⟨e, List.mem_of_mem_filter he, hpe⟩

theorem mkdirParents_spec (fs : FS) (p : FPath) (hp : p ≠ [])
    (hnf : ∀ q ∈ initSegsOf p, fs.isFile q = false) :
    ∃ fs2, fs.mkdirParents p = some fs2
      ∧ fs2.isDir p = true
      ∧ fs2.files = fs.files
      ∧ (∀ r, fs2.isDir r = true → r ∈ initSegsOf p ∨ fs.isDir r = true)
      ∧ (∀ r, fs.isDir r = true → fs2.isDir r = true) := by
  by_cases hd : fs.isDir p = true
  · refine ⟨fs, ?_, hd, rfl, fun r hr => Or.inr hr, fun r hr => hr⟩
    unfold FS.mkdirParents
    rw [if_pos hd]
  · have hany : (initSegsOf p).any (fun q => fs.isFile q) = false := by
      apply List.any_eq_false.mpr
      intro q hq
      rw [hnf q hq]
      exact Bool.false_ne_true
    refine ⟨⟨(initSegsOf p).filter (fun q => !(fs.isDir q)) ++ fs.dirs, fs.files⟩,
      ?_, ?_, rfl, ?_, ?_⟩
    · unfold FS.mkdirParents
      rw [if_neg hd, hany]
      rfl
    · show decide _ = true
      rw [decide_eq_true_eq]
      apply List.mem_append.mpr
      apply Or.inl
      apply List.mem_filter.mpr
      refine ⟨self_mem_initSegsOf p hp, ?_⟩
      cases hb : fs.isDir p with
      | false => rfl
      | true => exact absurd hb hd
    · intro r hr
      rw [show (⟨(initSegsOf p).filter (fun q => !(fs.isDir q)) ++ fs.dirs,
          fs.files⟩ : FS).isDir r
        = decide (r ∈ (initSegsOf p).filter (fun q => !(fs.isDir q)) ++ fs.dirs)
        from rfl, decide_eq_true_eq] at hr
      rcases List.mem_append.mp hr with h | h
      · exact Or.inl (List.mem_of_mem_filter h)
      · exact Or.inr (by show decide _ = true; rw [decide_eq_true_eq]; exact h)
    · intro r hr
      show decide _ = true
      rw [decide_eq_true_eq]
      apply List.mem_append.mpr
      apply Or.inr
      unfold FS.isDir at hr
      exact decide_eq_true_eq.mp hr

/-! ## Claim theorems: directory preparation -/

/-- Claim C3: when the content directory does not exist, `setup_directories`
exits with code 1 before touching anything — the filesystem carried out of
the step is exactly the input filesystem, so the output directory is neither
created, cleaned, nor modified.  (`sys.exit(1)` raises `SystemExit`, which
the `except Exception` handler in `build` does not catch, so the process
terminates with a non-zero code.) -/
theorem missing_content_exits_without_write (config : BuildConfig) (fs : FS)
    (h : fs.pathExists config.content_dir = false) :
    setup_directories config fs = .exited 1 fs := by
  unfold setup_directories
  rw [h]
  rfl

/-- Witness for C3: a concrete configuration whose content directory is
absent. -/
theorem missing_content_exits_without_write_witness :
    setup_directories ⟨false, true, "production", ["content"], ["dist"]⟩
        ⟨[["dist"]], [(["dist", "old.html"], ⟨[1], 1⟩)]⟩
      = SetupResult.exited 1 ⟨[["dist"]], [(["dist", "old.html"], ⟨[1], 1⟩)]⟩ :=
  missing_content_exits_without_write _ _ (by decide)

/-- Claim C4: directory preparation, when the content directory exists: with
`--clean` and an existing output directory, the whole output tree is deleted
before recreation (afterwards no file remains anywhere under the output root
and the only directory at or below it is the root itself); and in every case
the step completes without error with the output directory existing — in
particular no error is raised when it already existed and `--clean` was not
requested.  The hypotheses say only that the output path is nonempty and
that no position on its directory chain is occupied by a regular file, which
always holds on a real filesystem. -/
theorem setup_directories_prepares_output (config : BuildConfig) (fs : FS)
    (hc : fs.pathExists config.content_dir = true)
    (hdist : config.dist_dir ≠ [])
    (hnf : ∀ q, isInitSeg q config.dist_dir = true → fs.isFile q = false) :
    ∃ fs2, setup_directories config fs = .ok fs2
      ∧ fs2.isDir config.dist_dir = true
      ∧ (config.clean = true → fs.isDir config.dist_dir = true →
          ∀ q, isInitSeg config.dist_dir q = true →
            fs2.fileAt q = none
            ∧ (fs2.isDir q = true ↔ q = config.dist_dir)) := by
  unfold setup_directories
  rw [hc]
  simp only [Bool.not_true, Bool.false_eq_true, if_false]
  by_cases hcl : (config.clean && fs.pathExists config.dist_dir) = true
  · rw [if_pos hcl]
    have hdd : fs.isDir config.dist_dir = true := by
      have hpe := (Bool.and_eq_true _ _).mp hcl |>.2
      unfold FS.pathExists at hpe
      rcases (Bool.or_eq_true _ _).mp hpe with h | h
      · rw [hnf config.dist_dir (isInitSeg_rfl _)] at h
        exact absurd h Bool.false_ne_true
      · exact h
    rw [if_pos hdd]
    have hnf2 : ∀ q ∈ initSegsOf config.dist_dir,
        (fs.rmtree config.dist_dir).isFile q = false := by
      intro q hq
      cases hb : (fs.rmtree config.dist_dir).isFile q with
      | false => rfl
      | true =>
        have := rmtree_isFile_le fs config.dist_dir q hb
        rw [hnf q (isInitSeg_of_mem_initSegsOf q config.dist_dir hq)] at this
        exact absurd this Bool.false_ne_true
    obtain ⟨fs2, heq, hdir2, hfiles2, hfwd, hbwd⟩ :=
      mkdirParents_spec (fs.rmtree config.dist_dir) config.dist_dir hdist hnf2
    rw [heq]
    refine ⟨fs2, rfl, hdir2, ?_⟩
    intro _ _ q hq
    constructor
    · have : fs2.fileAt q = (fs.rmtree config.dist_dir).fileAt q := by
        unfold FS.fileAt
        rw [hfiles2]
      rw [this]
      exact rmtree_fileAt_under fs config.dist_dir q hq
    · constructor
      · intro hq2
        rcases hfwd q hq2 with h | h
        · exact isInitSeg_antisymm q config.dist_dir
            (isInitSeg_of_mem_initSegsOf q config.dist_dir h) hq
        · rw [rmtree_isDir] at h
          rcases (Bool.and_eq_true _ _).mp h with ⟨_, hnot⟩
          rw [hq] at hnot
          exact absurd hnot (by decide)
      · intro hq2
        rw [hq2]
        exact hdir2
  · rw [if_neg hcl]
    have hnf2 : ∀ q ∈ initSegsOf config.dist_dir, fs.isFile q = false :=
      fun q hq => hnf q (isInitSeg_of_mem_initSegsOf q config.dist_dir hq)
    obtain ⟨fs2, heq, hdir2, _, _, _⟩ :=
      mkdirParents_spec fs config.dist_dir hdist hnf2
    rw [heq]
    refine ⟨fs2, rfl, hdir2, ?_⟩
    intro hclean hdd
    exfalso
    apply hcl
    rw [hclean]
    unfold FS.pathExists
    rw [hdd]
    simp

/-- Witness for C4: a clean build over an output directory that already
contains a subdirectory. -/
theorem setup_directories_prepares_output_witness :
    ∃ fs2, setup_directories
        ⟨false, true, "production", ["content"], ["dist"]⟩
        ⟨[["content"], ["dist"], ["dist", "sub"]], []⟩ = .ok fs2
      ∧ fs2.isDir ["dist"] = true
      ∧ ((true : Bool) = true →
          (FS.isDir ⟨[["content"], ["dist"], ["dist", "sub"]], []⟩ ["dist"]) = true →
          ∀ q, isInitSeg ["dist"] q = true →
            fs2.fileAt q = none ∧ (fs2.isDir q = true ↔ q = ["dist"])) :=
  setup_directories_prepares_output
    ⟨false, true, "production", ["content"], ["dist"]⟩
    ⟨[["content"], ["dist"], ["dist", "sub"]], []⟩
    (by decide) (by decide) (fun q _ => rfl)
